import Mathlib

/-!
Shallow embedding, in exact rational arithmetic, of
`nilearn/group_sparse_covariance.py`: simultaneous sparse estimation of
precision matrices for several tasks (the Honorio-Samaras block coordinate
descent), together with proofs of the specified properties.

Stacked numpy arrays `a[..., k]` are represented as functions `Fin K → _`
of the task index; an array axis of length `n_var` is `Fin (n + 2)`, the
submatrix axes are `Fin (n + 1)`, and the inner coordinate axes `Fin n`.
External numeric library routines (`np.sqrt`, sklearn's `fast_logdet`) are
parameters of the embedding; nothing proved here depends on their values.
-/

namespace GroupSparseCov

open Matrix

/-- Model of `symmetrize(M)`: `M[...] = M + M.T; M[...] /= 2.` (in place in
the source; value-level here). -/
def symmetrize {d : ℕ} (M : Matrix (Fin d) (Fin d) ℚ) : Matrix (Fin d) (Fin d) ℚ :=
  Matrix.of fun i j => (M i j + Mᵀ i j) / 2

/-- Model of the external routine `np.linalg.inv`: the exact matrix inverse,
written `det⁻¹ • adjugate` so that it is executable; it agrees with
`Matrix.inv` on invertible input. -/
def linalg_inv {d : ℕ} (A : Matrix (Fin d) (Fin d) ℚ) : Matrix (Fin d) (Fin d) ℚ :=
  (A.det)⁻¹ • A.adjugate

/-- Modelled from the spec: the external collaborator
`sklearn.covariance.empirical_covariance` — the maximum-likelihood
(sample-size-normalized) covariance estimate of the columns of `X`,
subtracting column means unless `assume_centered` is set. -/
def empirical_covariance {T d : ℕ} (X : Matrix (Fin T) (Fin d) ℚ)
    (assume_centered : Bool) : Matrix (Fin d) (Fin d) ℚ :=
  let mean : Fin d → ℚ := fun j => (∑ t, X t j) / (T : ℚ)
  let Xc : Matrix (Fin T) (Fin d) ℚ :=
    if assume_centered then X else Matrix.of fun t j => X t j - mean j
  Matrix.of fun i j => (∑ t, Xc t i * Xc t j) / (T : ℚ)

/-- Model of `quad_trust_region(alpha, q, two_ccq, cc, rho2)`: the value
optimized to zero by the Newton-Raphson step. -/
def quad_trust_region {K : ℕ} (alpha : ℚ) (q two_ccq cc : Fin K → ℚ) (rho2 : ℚ) : ℚ :=
  rho2 - ∑ k, cc k / (1 + alpha * q k) ^ 2

/-- Model of `quad_trust_region_deriv`: derivative of `quad_trust_region`. -/
def quad_trust_region_deriv {K : ℕ} (alpha : ℚ) (q two_ccq cc : Fin K → ℚ)
    (rho2 : ℚ) : ℚ :=
  ∑ k, two_ccq k / (1 + alpha * q k) ^ 3

/-- Modelled from the spec: one step of the external root finder
`scipy.optimize.newton`, `p ← p - f(p)/f'(p)`.  A zero derivative leaves `p`
unchanged (division by zero is zero here), matching the library's early
return in that case. -/
def newton_step (f fprime : ℚ → ℚ) (p0 : ℚ) : ℚ :=
  p0 - f p0 / fprime p0

/-- The sequence of Newton-Raphson iterates from `x0`. -/
def newton_seq (f fprime : ℚ → ℚ) (x0 : ℚ) : ℕ → ℚ
  | 0 => x0
  | j + 1 => newton_step f fprime (newton_seq f fprime x0 j)

/-- Modelled from the spec: the external root finder `scipy.optimize.newton`
called with an explicit derivative — at most `maxiter` Newton-Raphson steps
from `p0`, stopping as soon as a step moves less than `tol`, and returning
the last iterate obtained (spec §4.2: "capped at 50 iterations … proceed
with the last alpha obtained — do not abort"). -/
def scipy_newton (f fprime : ℚ → ℚ) (tol : ℚ) : ℕ → ℚ → ℚ
  | 0, p0 => p0
  | maxiter + 1, p0 =>
    let p := newton_step f fprime p0
    if |p - p0| < tol then p else scipy_newton f fprime tol maxiter p

/-- Default convergence tolerance of `scipy.optimize.newton`. -/
def newton_tol : ℚ := 1.48e-8

/-- Direct deletion: the submatrix of `A` with row and column `p` removed
(`Fin.succAbove p` is the index map `i ↦ i` for `i < p`, `i ↦ i + 1` for
`i ≥ p`, exactly the slicing used by `assert_submatrix`). -/
def submatrixAt {d : ℕ} (A : Matrix (Fin (d + 1)) (Fin (d + 1)) ℚ) (p : Fin (d + 1)) :
    Matrix (Fin d) (Fin d) ℚ :=
  A.submatrix p.succAbove p.succAbove

/-- Model of `update_vectors(full, n)` (the source's `n` is called `q` here):
the new row `h` and column `v` at position `q` of the submatrix of `full`
excluding row and column `q + 1`.  The source fills `h` by the slice
assignments `h[:n+1] = full[n, :n+1]` and `h[n+1:] = full[n, n+2:]` (and `v`
symmetrically); the index map `j ↦ j` for `j ≤ n`, `j ↦ j + 1` for `j > n`
is exactly `Fin.succAbove (q + 1)`. -/
def update_vectors {d : ℕ} (full : Matrix (Fin (d + 1)) (Fin (d + 1)) ℚ) (q : Fin d) :
    (Fin d → ℚ) × (Fin d → ℚ) :=
  (fun j => full q.castSucc (q.succ.succAbove j),
   fun i => full (q.succ.succAbove i) q.castSucc)

/-- The "change row" half of `update_submatrix`: the Sherman-Morrison rank-1
correction of `sub_inv` for replacing row `q` of `sub` by `h`, followed by
the row replacement itself.  Returns the updated `(sub, sub_inv)` pair. -/
def update_submatrix_row {d : ℕ} (full : Matrix (Fin (d + 1)) (Fin (d + 1)) ℚ)
    (sub sub_inv : Matrix (Fin d) (Fin d) ℚ) (q : Fin d) :
    Matrix (Fin d) (Fin d) ℚ × Matrix (Fin d) (Fin d) ℚ :=
  let h := (update_vectors full q).1
  let coln : Fin d → ℚ := fun i => sub_inv i q
  let V : Fin d → ℚ := fun j => h j - sub q j
  let coln' : Fin d → ℚ := fun i => coln i / (1 + V ⬝ᵥ coln)
  (sub.updateRow q h, sub_inv - vecMulVec coln' (V ᵥ* sub_inv))

/-- The "change column" half of `update_submatrix`: the symmetric operation
on column `q`, using `v` and the (already row-corrected) inverse. -/
def update_submatrix_col {d : ℕ} (full : Matrix (Fin (d + 1)) (Fin (d + 1)) ℚ)
    (sub sub_inv : Matrix (Fin d) (Fin d) ℚ) (q : Fin d) :
    Matrix (Fin d) (Fin d) ℚ × Matrix (Fin d) (Fin d) ℚ :=
  let v := (update_vectors full q).2
  let rown : Fin d → ℚ := fun j => sub_inv q j
  let U : Fin d → ℚ := fun i => v i - sub i q
  let rown' : Fin d → ℚ := fun j => rown j / (1 + rown ⬝ᵥ U)
  (sub.updateColumn q v, sub_inv - vecMulVec (sub_inv *ᵥ U) rown')

/-- Model of `update_submatrix(full, sub, sub_inv, p)`, indexed by
`q = p - 1`: assuming `(sub, sub_inv)` correspond to excluding row/column
`q` of `full`, produce the pair corresponding to excluding `q + 1`, by the
two Sherman-Morrison-Woodbury rank-1 corrections (no reinversion). -/
def update_submatrix {d : ℕ} (full : Matrix (Fin (d + 1)) (Fin (d + 1)) ℚ)
    (sub sub_inv : Matrix (Fin d) (Fin d) ℚ) (q : Fin d) :
    Matrix (Fin d) (Fin d) ℚ × Matrix (Fin d) (Fin d) ℚ :=
  let r := update_submatrix_row full sub sub_inv q
  update_submatrix_col full r.1 r.2 q

/-- The denominator `1. + np.dot(V, coln)` of the row-step correction. -/
def row_denom {d : ℕ} (full : Matrix (Fin (d + 1)) (Fin (d + 1)) ℚ)
    (sub sub_inv : Matrix (Fin d) (Fin d) ℚ) (q : Fin d) : ℚ :=
  1 + (fun j => (update_vectors full q).1 j - sub q j) ⬝ᵥ (fun i => sub_inv i q)

/-- The denominator `1. + np.dot(rown, U)` of the column-step correction
(evaluated, as in the source, after the row step has run). -/
def col_denom {d : ℕ} (full : Matrix (Fin (d + 1)) (Fin (d + 1)) ℚ)
    (sub sub_inv : Matrix (Fin d) (Fin d) ℚ) (q : Fin d) : ℚ :=
  let r := update_submatrix_row full sub sub_inv q
  1 + (fun j => r.2 q j) ⬝ᵥ (fun i => (update_vectors full q).2 i - r.1 i q)

/-- The per-coordinate joint vector `c` of the coordinate-descent step
(lines 299-306): `c[:] = -n_samples * (emp_covs[p, p, :] *
(h_12 * y_1).sum(axis=1) + u[:, m])`, with `h_12` and `y_1` the slices of
`Winv[:, m, :]` and `y` that exclude position `m`. -/
def coord_c {n K : ℕ} (n_samples : Fin K → ℚ)
    (emp_covs : Fin K → Matrix (Fin (n + 2)) (Fin (n + 2)) ℚ)
    (Winv : Fin K → Matrix (Fin (n + 1)) (Fin (n + 1)) ℚ)
    (p : Fin (n + 2)) (u y : Fin K → Fin (n + 1) → ℚ) (m : Fin (n + 1)) :
    Fin K → ℚ :=
  let h_12 : Fin K → Fin n → ℚ := fun k j => Winv k (m.succAbove j) m
  let y_1 : Fin K → Fin n → ℚ := fun k j => y k (m.succAbove j)
  fun k => - n_samples k * (emp_covs k p p * (∑ j, h_12 k j * y_1 k j) + u k m)

/-- Line 315: the per-task curvature `q(k) = T(k) * v(k) * h_22(k)`, that
is `q = n_samples * emp_covs[p, p, :] * Winv[m, m, :]`. -/
def coord_q {n K : ℕ} (n_samples : Fin K → ℚ)
    (emp_covs : Fin K → Matrix (Fin (n + 2)) (Fin (n + 2)) ℚ)
    (Winv : Fin K → Matrix (Fin (n + 1)) (Fin (n + 1)) ℚ)
    (p : Fin (n + 2)) (m : Fin (n + 1)) : Fin K → ℚ :=
  fun k => n_samples k * emp_covs k p p * Winv k m m

/-- Lines 320-328: the Lagrange multiplier `alpha` returned by the
`scipy.optimize.newton` call of the else branch (from 0, derivative
`quad_trust_region_deriv`, `maxiter=50`). -/
def coord_alpha {n K : ℕ} (n_samples : Fin K → ℚ)
    (emp_covs : Fin K → Matrix (Fin (n + 2)) (Fin (n + 2)) ℚ)
    (Winv : Fin K → Matrix (Fin (n + 1)) (Fin (n + 1)) ℚ)
    (p : Fin (n + 2)) (u y : Fin K → Fin (n + 1) → ℚ) (m : Fin (n + 1))
    (rho : ℚ) : ℚ :=
  let c := coord_c n_samples emp_covs Winv p u y m
  let q := coord_q n_samples emp_covs Winv p m
  let cc : Fin K → ℚ := fun k => c k * c k
  let two_ccq : Fin K → ℚ := fun k => 2 * cc k * q k
  scipy_newton (fun a => quad_trust_region a q two_ccq cc (rho ^ 2))
    (fun a => quad_trust_region_deriv a q two_ccq cc (rho ^ 2)) newton_tol 50 0

/-- Lines 330-331: `remainder = quad_trust_region(alpha, q, two_ccq, cc,
rho ** 2)`, the residual of the equation at the returned `alpha`. -/
def coord_remainder {n K : ℕ} (n_samples : Fin K → ℚ)
    (emp_covs : Fin K → Matrix (Fin (n + 2)) (Fin (n + 2)) ℚ)
    (Winv : Fin K → Matrix (Fin (n + 1)) (Fin (n + 1)) ℚ)
    (p : Fin (n + 2)) (u y : Fin K → Fin (n + 1) → ℚ) (m : Fin (n + 1))
    (rho : ℚ) : ℚ :=
  let c := coord_c n_samples emp_covs Winv p u y m
  let q := coord_q n_samples emp_covs Winv p m
  let cc : Fin K → ℚ := fun k => c k * c k
  let two_ccq : Fin K → ℚ := fun k => 2 * cc k * q k
  quad_trust_region (coord_alpha n_samples emp_covs Winv p u y m rho)
    q two_ccq cc (rho ^ 2)

/-- One iteration `m` of the coordinate-descent loop at pivot `p`
(lines 290-340): the shared threshold test on `c2 = np.sqrt(np.dot(c, c))`
zeroes column `m` of `y` in every task at once; otherwise the
Newton-Raphson root-find produces `alpha` and column `m` becomes
`alpha * c / (1 + alpha * q)`, with the warning counter incremented when
`abs(remainder) > 0.1`.  `sqrtf` models `np.sqrt`. -/
def coord_step {n K : ℕ} (sqrtf : ℚ → ℚ) (n_samples : Fin K → ℚ)
    (emp_covs : Fin K → Matrix (Fin (n + 2)) (Fin (n + 2)) ℚ) (rho : ℚ)
    (Winv : Fin K → Matrix (Fin (n + 1)) (Fin (n + 1)) ℚ)
    (p : Fin (n + 2)) (u : Fin K → Fin (n + 1) → ℚ)
    (st : (Fin K → Fin (n + 1) → ℚ) × ℕ) (m : Fin (n + 1)) :
    (Fin K → Fin (n + 1) → ℚ) × ℕ :=
  let y := st.1
  let c := coord_c n_samples emp_covs Winv p u y m
  let c2 := sqrtf (c ⬝ᵥ c)
  if c2 ≤ rho then
    (fun k j => if j = m then 0 else y k j, st.2)
  else
    let q := coord_q n_samples emp_covs Winv p m
    let alpha := coord_alpha n_samples emp_covs Winv p u y m rho
    let remainder := coord_remainder n_samples emp_covs Winv p u y m rho
    (fun k j => if j = m then alpha * c k / (1 + alpha * q k) else y k j,
     if 0.1 < |remainder| then st.2 + 1 else st.2)

/-- Lines 281-282: extraction of the pivot column of the precision stack,
`y[:, :p] = omega[:p, p, :].T` and `y[:, p:] = omega[p+1:, p, :].T`. -/
def extract_y {n K : ℕ} (omega : Fin K → Matrix (Fin (n + 2)) (Fin (n + 2)) ℚ)
    (p : Fin (n + 2)) : Fin K → Fin (n + 1) → ℚ :=
  fun k m => omega k (p.succAbove m) p

/-- Lines 284-285: extraction of the pivot column of the covariance stack,
`u[:, :p] = emp_covs[:p, p, :].T` and `u[:, p:] = emp_covs[p+1:, p, :].T`. -/
def extract_u {n K : ℕ} (emp_covs : Fin K → Matrix (Fin (n + 2)) (Fin (n + 2)) ℚ)
    (p : Fin (n + 2)) : Fin K → Fin (n + 1) → ℚ :=
  fun k m => emp_covs k (p.succAbove m) p

/-- Left inverse of `Fin.succAbove p`: the submatrix position of a full
index `i ≠ p`, used to express the slice write-back of row/column `p`
(lines 343-346).  Total; the value at `i = p` is never used. -/
def unskip {d : ℕ} (p i : Fin (d + 2)) : Fin (d + 1) :=
  if h : (i : ℕ) < (p : ℕ) then ⟨(i : ℕ), by have := p.isLt; omega⟩
  else ⟨(i : ℕ) - 1, by have := i.isLt; omega⟩

/-- The mutable state of the optimization loop: the precision stack `omega`,
the maintained submatrix stack `W` and inverse stack `Winv`, the number of
non-convergence warnings emitted so far, and the cost trace. -/
structure SolveState (n K : ℕ) where
  omega : Fin K → Matrix (Fin (n + 2)) (Fin (n + 2)) ℚ
  W : Fin K → Matrix (Fin (n + 1)) (Fin (n + 1)) ℚ
  Winv : Fin K → Matrix (Fin (n + 1)) (Fin (n + 1)) ℚ
  warns : ℕ
  costs : List ℚ

/-- The parameters of one solver invocation that stay fixed across the
loop; `sqrtf` and `logdetf` model the external `np.sqrt` and sklearn's
`fast_logdet`. -/
structure SolveParams (n K : ℕ) where
  sqrtf : ℚ → ℚ
  logdetf : Matrix (Fin (n + 2)) (Fin (n + 2)) ℚ → ℚ
  n_samples : Fin K → ℚ
  emp_covs : Fin K → Matrix (Fin (n + 2)) (Fin (n + 2)) ℚ
  rho : ℚ
  return_costs : Bool

/-- Lines 249-277: the submatrix stack and its inverse for pivot `p` — by
direct deletion and direct inversion (`np.linalg.inv`) at `p = 0`, and by
`update_submatrix` from the previous pivot's stacks otherwise. -/
def pivot_W_Winv {n K : ℕ} (st : SolveState n K) (p : Fin (n + 2)) :
    (Fin K → Matrix (Fin (n + 1)) (Fin (n + 1)) ℚ) ×
      (Fin K → Matrix (Fin (n + 1)) (Fin (n + 1)) ℚ) :=
  if h : p = 0 then
    (fun k => submatrixAt (st.omega k) 0,
     fun k => linalg_inv (submatrixAt (st.omega k) 0))
  else
    (fun k => (update_submatrix (st.omega k) (st.W k) (st.Winv k) (p.pred h)).1,
     fun k => (update_submatrix (st.omega k) (st.W k) (st.Winv k) (p.pred h)).2)

/-- Lines 279-340: the coordinate-descent pass at pivot `p` — extract `y`
and `u`, then run `coord_step` for `m = 0 … n_var - 2` in order
(Gauss-Seidel: each step reads the `y` left by the previous steps).
Returns the final `y` and the updated warning count. -/
def coord_pass {n K : ℕ} (sqrtf : ℚ → ℚ) (n_samples : Fin K → ℚ)
    (emp_covs : Fin K → Matrix (Fin (n + 2)) (Fin (n + 2)) ℚ) (rho : ℚ)
    (Winv : Fin K → Matrix (Fin (n + 1)) (Fin (n + 1)) ℚ) (p : Fin (n + 2))
    (omega : Fin K → Matrix (Fin (n + 2)) (Fin (n + 2)) ℚ) (warns : ℕ) :
    (Fin K → Fin (n + 1) → ℚ) × ℕ :=
  List.foldl (coord_step sqrtf n_samples emp_covs rho Winv p (extract_u emp_covs p))
    (extract_y omega p, warns) (List.finRange (n + 1))

/-- Model of `_group_sparse_covariance_cost` (lines 25-42). -/
def group_sparse_covariance_cost {n K : ℕ}
    (logdetf : Matrix (Fin (n + 2)) (Fin (n + 2)) ℚ → ℚ) (sqrtf : ℚ → ℚ)
    (n_samples : Fin K → ℚ) (rho : ℚ)
    (omega emp_covs : Fin K → Matrix (Fin (n + 2)) (Fin (n + 2)) ℚ) : ℚ :=
  let ll := ∑ k, n_samples k *
    (logdetf (omega k) - ∑ i, ∑ j, omega k i j * emp_covs k i j)
  let l2 : Matrix (Fin (n + 2)) (Fin (n + 2)) ℚ :=
    Matrix.of fun i j => sqrtf (∑ k, omega k i j ^ 2)
  let l12 := ((∑ i, ∑ j, l2 i j) - ∑ i, l2 i i);
  - (ll - rho * l12)

/-- Lines 247-359: processing of one pivot `p` — submatrix maintenance,
the coordinate-descent pass, the symmetric write-back of `y` into row `p`
and column `p`, the diagonal update
`omega[p, p, k] = 1/emp_covs[p, p, k] + y·Winv·y`, and the optional
cost-trace append. -/
def pivot_update {n K : ℕ} (pr : SolveParams n K) (st : SolveState n K)
    (p : Fin (n + 2)) : SolveState n K :=
  let WW := pivot_W_Winv st p
  let yw := coord_pass pr.sqrtf pr.n_samples pr.emp_covs pr.rho WW.2 p st.omega st.warns
  let y := yw.1
  let omega' : Fin K → Matrix (Fin (n + 2)) (Fin (n + 2)) ℚ := fun k =>
    Matrix.of fun i j =>
      if i = p then
        if j = p then 1 / pr.emp_covs k p p + (y k ᵥ* WW.2 k) ⬝ᵥ y k
        else y k (unskip p j)
      else if j = p then y k (unskip p i)
      else st.omega k i j
  if pr.return_costs then
    ⟨omega', WW.1, WW.2, yw.2, st.costs ++
      [group_sparse_covariance_cost pr.logdetf pr.sqrtf pr.n_samples pr.rho
        omega' pr.emp_covs]⟩
  else ⟨omega', WW.1, WW.2, yw.2, st.costs⟩

/-- Lines 247-359: one full sweep of the pivot loop, `p = 0 … n_var - 1`. -/
def sweep {n K : ℕ} (pr : SolveParams n K) (st : SolveState n K) : SolveState n K :=
  List.foldl (pivot_update pr) st (List.finRange (n + 2))

/-- Lines 243-359: the fixed-budget optimization loop — `n_iter` complete
sweeps, with no early-stopping or convergence check. -/
def solve_loop {n K : ℕ} (pr : SolveParams n K) (n_iter : ℕ) (st : SolveState n K) :
    SolveState n K :=
  (sweep pr)^[n_iter] st

/-- Lines 205-364 of `group_sparse_covariance`, after input validation:
sample-count weights, covariance construction and symmetrization, diagonal
initialization of the precision stack, the optimization loop, and the
returned tuple (`emp_covs`, `omega`, and the cost trace iff
`return_costs`).  `T k` is task `k`'s sample count and `X k` its signal
array.  The uninitialized numpy buffers `W`, `Winv` are modelled as zero;
pivot 0 overwrites them before any read. -/
def group_sparse_covariance_core {n K : ℕ} (sqrtf : ℚ → ℚ)
    (logdetf : Matrix (Fin (n + 2)) (Fin (n + 2)) ℚ → ℚ)
    (T : Fin (K + 1) → ℕ) (X : (k : Fin (K + 1)) → Matrix (Fin (T k)) (Fin (n + 2)) ℚ)
    (rho : ℚ) (n_iter : ℕ) (assume_centered return_costs : Bool) :
    (Fin (K + 1) → Matrix (Fin (n + 2)) (Fin (n + 2)) ℚ) ×
      (Fin (K + 1) → Matrix (Fin (n + 2)) (Fin (n + 2)) ℚ) × Option (List ℚ) :=
  let n_samples : Fin (K + 1) → ℚ := fun k => (T k : ℚ) / ((Finset.univ.sup T : ℕ) : ℚ)
  let emp_covs : Fin (K + 1) → Matrix (Fin (n + 2)) (Fin (n + 2)) ℚ :=
    fun k => symmetrize (empirical_covariance (X k) assume_centered)
  let omega0 : Fin (K + 1) → Matrix (Fin (n + 2)) (Fin (n + 2)) ℚ :=
    fun k => Matrix.diagonal fun i => 1 / emp_covs k i i
  let pr : SolveParams n (K + 1) := ⟨sqrtf, logdetf, n_samples, emp_covs, rho, return_costs⟩
  let final := solve_loop pr n_iter ⟨omega0, fun _ => 0, fun _ => 0, 0, []⟩
  (emp_covs, final.omega, if return_costs then some final.costs else none)

/-- The final `y` left by the coordinate-descent pass inside
`pivot_update pr st p`. -/
def pivot_y {n K : ℕ} (pr : SolveParams n K) (st : SolveState n K) (p : Fin (n + 2)) :
    Fin K → Fin (n + 1) → ℚ :=
  (coord_pass pr.sqrtf pr.n_samples pr.emp_covs pr.rho (pivot_W_Winv st p).2 p
    st.omega st.warns).1

/-- The coordinate-descent state inside `pivot_update pr st p` after only
the coordinates before `m` have been processed (a prefix of the `m` loop of
lines 290-340). -/
def coord_pass_upto {n K : ℕ} (pr : SolveParams n K) (st : SolveState n K)
    (p : Fin (n + 2)) (m : Fin (n + 1)) : (Fin K → Fin (n + 1) → ℚ) × ℕ :=
  List.foldl
    (coord_step pr.sqrtf pr.n_samples pr.emp_covs pr.rho (pivot_W_Winv st p).2 p
      (extract_u pr.emp_covs p))
    (extract_y st.omega p, st.warns) ((List.finRange (n + 1)).take (m : ℕ))

/-- The submatrix/inverse maintenance sequence of one sweep, as the spec's
Initialize/Advance state machine: direct deletion and direct inversion at
pivot 0 (lines 249-259), then `update_submatrix` advances the excluded
index from `j` to `j + 1` (lines 261-268).  Steps beyond the last pivot
leave the state unchanged. -/
def submatrix_seq {d : ℕ} (full : Matrix (Fin (d + 1)) (Fin (d + 1)) ℚ) :
    ℕ → Matrix (Fin d) (Fin d) ℚ × Matrix (Fin d) (Fin d) ℚ
  | 0 => (submatrixAt full 0, linalg_inv (submatrixAt full 0))
  | j + 1 =>
    if h : j < d then
      update_submatrix full (submatrix_seq full j).1 (submatrix_seq full j).2 ⟨j, h⟩
    else submatrix_seq full j

/-- A 2-D numpy array as passed for one task: its shape, and its entries
as an untyped map. -/
structure PyArray2D where
  rows : ℕ
  cols : ℕ
  data : ℕ → ℕ → ℚ

/-- The `rho` argument of the dynamically-typed entry point: either a
number (`isinstance(rho, (int, float))` holds) or some other object, of
which only `str(rho)` matters. -/
inductive RhoArg where
  | num (x : ℚ)
  | notNum (str : String)

/-- The `signals` argument: either an iterable of 2-D arrays
(`hasattr(signals, "__iter__")` holds) or a non-iterable object, of which
only its class name matters. -/
inductive SignalsArg where
  | iterable (sigs : List PyArray2D)
  | notIterable (cls : String)

/-- The `ValueError`s that `group_sparse_covariance` raises during input
validation (lines 192-204), with the data interpolated into each message. -/
inductive ValidationError where
  | rhoNotNonneg (provided : String)
  | signalsNotIterable (cls : String)
  | featureMismatch (counts : List ℕ)

/-- Lines 192-204: the input validation of `group_sparse_covariance`, in
source order — the `rho` check, then the iterability check, then the
variable-count agreement check `len(set(n_tasks)) > 1`. -/
def gsc_validate (rho : RhoArg) (signals : SignalsArg) : Except ValidationError Unit :=
  match rho with
  | .notNum s => .error (.rhoNotNonneg s)
  | .num x =>
    if x < 0 then .error (.rhoNotNonneg (toString x))
    else
      match signals with
      | .notIterable cls => .error (.signalsNotIterable cls)
      | .iterable sigs =>
        if 1 < (sigs.map PyArray2D.cols).dedup.length then
          .error (.featureMismatch (sigs.map PyArray2D.cols))
        else .ok ()

/-- The condition "rho is not a non-negative number". -/
def bad_rho : RhoArg → Prop
  | .num x => x < 0
  | .notNum _ => True

/-- The condition "two tasks have differing variable (column) counts". -/
def feature_mismatch : SignalsArg → Prop
  | .iterable sigs => ∃ s1 ∈ sigs, ∃ s2 ∈ sigs, s1.cols ≠ s2.cols
  | .notIterable _ => False

/-- The loosely-typed output of the entry point: `emp_covs` and `omega` as
`task → row → col → value` maps, and the optional cost trace. -/
structure GscOutput where
  emp_covs : ℕ → ℕ → ℕ → ℚ
  omega : ℕ → ℕ → ℕ → ℚ
  costs : Option (List ℚ)

/-- The post-validation computation (lines 205-364) on loosely-typed
input: dispatches to `group_sparse_covariance_core` once the common
variable count `n_var = signals[0].shape[1]` and the task count are known.
A task list that is empty or has fewer than two variables makes the source
crash with non-validation errors (IndexError, negative array shapes);
those degenerate inputs return a default value here, and no claim concerns
them. -/
def gsc_compute (sqrtf : ℚ → ℚ) (logdetf : (d : ℕ) → Matrix (Fin d) (Fin d) ℚ → ℚ)
    (sigs : List PyArray2D) (rho : ℚ) (n_iter : ℕ)
    (assume_centered return_costs : Bool) : GscOutput :=
  match sigs with
  | [] => ⟨fun _ _ _ => 0, fun _ _ _ => 0, none⟩
  | s0 :: rest =>
    match s0.cols with
    | 0 => ⟨fun _ _ _ => 0, fun _ _ _ => 0, none⟩
    | 1 => ⟨fun _ _ _ => 0, fun _ _ _ => 0, none⟩
    | nv2 + 2 =>
      let sl := s0 :: rest
      let T : Fin (rest.length + 1) → ℕ := fun k => (sl.getD (k : ℕ) ⟨0, 0, fun _ _ => 0⟩).rows
      let X : (k : Fin (rest.length + 1)) → Matrix (Fin (T k)) (Fin (nv2 + 2)) ℚ :=
        fun k => Matrix.of fun t j => (sl.getD (k : ℕ) ⟨0, 0, fun _ _ => 0⟩).data t j
      let res := group_sparse_covariance_core sqrtf (logdetf (nv2 + 2)) T X rho n_iter
        assume_centered return_costs
      ⟨fun k i j =>
          if h : k < rest.length + 1 ∧ i < nv2 + 2 ∧ j < nv2 + 2 then
            res.1 ⟨k, h.1⟩ ⟨i, h.2.1⟩ ⟨j, h.2.2⟩
          else 0,
        fun k i j =>
          if h : k < rest.length + 1 ∧ i < nv2 + 2 ∧ j < nv2 + 2 then
            res.2.1 ⟨k, h.1⟩ ⟨i, h.2.1⟩ ⟨j, h.2.2⟩
          else 0,
        res.2.2⟩

/-- The dynamically-typed entry point `group_sparse_covariance(signals,
rho, n_iter, assume_centered, verbose, dtype, return_costs, debug)`: the
three validation checks of lines 192-204 run first, in source order, and
any failure raises the designated `ValueError` before any covariance or
precision computation; otherwise the computation of lines 205-364 runs. -/
def group_sparse_covariance (sqrtf : ℚ → ℚ)
    (logdetf : (d : ℕ) → Matrix (Fin d) (Fin d) ℚ → ℚ)
    (signals : SignalsArg) (rho : RhoArg) (n_iter : ℕ)
    (assume_centered return_costs : Bool) : Except ValidationError GscOutput :=
  match rho with
  | .notNum s => .error (.rhoNotNonneg s)
  | .num x =>
    if x < 0 then .error (.rhoNotNonneg (toString x))
    else
      match signals with
      | .notIterable cls => .error (.signalsNotIterable cls)
      | .iterable sigs =>
        if 1 < (sigs.map PyArray2D.cols).dedup.length then
          .error (.featureMismatch (sigs.map PyArray2D.cols))
        else .ok (gsc_compute sqrtf logdetf sigs x n_iter assume_centered return_costs)

/-- A tiny concrete solver configuration (one task, two variables,
identity covariances, `rho = 1`, external routines instantiated trivially)
used by witnesses. -/
def prW : SolveParams 0 1 :=
  ⟨id, fun _ => 0, fun _ => 1, fun _ => 1, 1, false⟩

/-- A tiny concrete loop state (identity precision estimate) used by
witnesses. -/
def stW : SolveState 0 1 :=
  ⟨fun _ => 1, fun _ => 0, fun _ => 0, 0, []⟩

theorem unskip_succAbove {d : ℕ} (p : Fin (d + 2)) (m : Fin (d + 1)) :
    unskip p (p.succAbove m) = m := by
  rcases lt_or_le m.castSucc p with h | h
  · rw [Fin.succAbove_of_castSucc_lt p m h]
    have hv : (m : ℕ) < (p : ℕ) := by
      simpa using Fin.lt_def.mp h
    apply Fin.ext
    simp [unskip, hv]
  · rw [Fin.succAbove_of_le_castSucc p m h]
    have hv : ¬ ((m : ℕ) + 1 < (p : ℕ)) := by
      have := Fin.le_def.mp h
      simp only [Fin.coe_castSucc] at this
      omega
    apply Fin.ext
    simp [unskip, hv]

theorem succAbove_unskip {d : ℕ} (p i : Fin (d + 2)) (h : i ≠ p) :
    p.succAbove (unskip p i) = i := by
  have hne : (i : ℕ) ≠ (p : ℕ) := fun hc => h (Fin.ext hc)
  apply Fin.ext
  by_cases hlt : (i : ℕ) < (p : ℕ)
  · have h1 : unskip p i = ⟨(i : ℕ), by have := p.isLt; omega⟩ := by
      simp [unskip, hlt]
    rw [h1, Fin.succAbove_of_castSucc_lt]
    · simp
    · exact Fin.lt_def.mpr (by simpa using hlt)
  · have h1 : unskip p i = ⟨(i : ℕ) - 1, by have := i.isLt; omega⟩ := by
      simp [unskip, hlt]
    rw [h1, Fin.succAbove_of_le_castSucc]
    · simp only [Fin.val_succ]
      omega
    · apply Fin.le_def.mpr
      simp only [Fin.coe_castSucc]
      omega

/-- Entrywise description of the precision stack after `pivot_update`:
the symmetric write-back of `pivot_y` into row `p` and column `p`, the
diagonal update at `(p, p)`, and all other entries unchanged. -/
theorem pivot_update_omega_apply {n K : ℕ} (pr : SolveParams n K)
    (st : SolveState n K) (p : Fin (n + 2)) (k : Fin K) (i j : Fin (n + 2)) :
    (pivot_update pr st p).omega k i j =
      if i = p then
        if j = p then
          1 / pr.emp_covs k p p +
            (pivot_y pr st p k ᵥ* (pivot_W_Winv st p).2 k) ⬝ᵥ pivot_y pr st p k
        else pivot_y pr st p k (unskip p j)
      else if j = p then pivot_y pr st p k (unskip p i)
      else st.omega k i j := by
  unfold pivot_update pivot_y
  by_cases hrc : pr.return_costs <;> simp [hrc]

/-- C7: pivot diagonal postcondition — after the coordinate-descent pass
at pivot `p` completes, every task's diagonal entry satisfies
`omega[p, p, k] = 1/emp_covs[p, p, k] + y·Winv[k]·y`, with `y` the updated
off-diagonal vector and `Winv[k]` the maintained submatrix inverse
(lines 348-350). -/
theorem pivot_diagonal_postcondition {n K : ℕ} (pr : SolveParams n K)
    (st : SolveState n K) (p : Fin (n + 2)) (k : Fin K) :
    (pivot_update pr st p).omega k p p =
      1 / pr.emp_covs k p p +
        (pivot_y pr st p k ᵥ* (pivot_W_Winv st p).2 k) ⬝ᵥ pivot_y pr st p k := by
  rw [pivot_update_omega_apply]
  simp

/-- Helper for C4: one pivot update preserves symmetry of each task's
precision estimate. -/
theorem pivot_update_symm_aux {n K : ℕ} (pr : SolveParams n K)
    (st : SolveState n K) (p : Fin (n + 2))
    (hsym : ∀ k, (st.omega k)ᵀ = st.omega k) (k : Fin K) :
    ((pivot_update pr st p).omega k)ᵀ = (pivot_update pr st p).omega k := by
  ext i j
  rw [Matrix.transpose_apply, pivot_update_omega_apply, pivot_update_omega_apply]
  by_cases hi : i = p <;> by_cases hj : j = p <;> simp [hi, hj]
  have := congrFun (congrFun (hsym k) i) j
  simpa [Matrix.transpose_apply] using this

/-- Helper for C4: a fold of pivot updates preserves symmetry. -/
theorem foldl_pivot_update_symm {n K : ℕ} (pr : SolveParams n K)
    (L : List (Fin (n + 2))) (st : SolveState n K)
    (hsym : ∀ k, (st.omega k)ᵀ = st.omega k) :
    ∀ k, ((List.foldl (pivot_update pr) st L).omega k)ᵀ =
      (List.foldl (pivot_update pr) st L).omega k := by
  induction L generalizing st with
  | nil => simpa using hsym
  | cons a t ih =>
    intro k
    simp only [List.foldl_cons]
    exact ih (pivot_update pr st a) (fun k' => pivot_update_symm_aux pr st a hsym k') k

/-- Helper for C4: the whole fixed-budget loop preserves symmetry. -/
theorem solve_loop_symm {n K : ℕ} (pr : SolveParams n K) (m : ℕ)
    (st : SolveState n K) (hsym : ∀ k, (st.omega k)ᵀ = st.omega k) :
    ∀ k, ((solve_loop pr m st).omega k)ᵀ = (solve_loop pr m st).omega k := by
  induction m generalizing st with
  | zero => simpa [solve_loop] using hsym
  | succ m ih =>
    intro k
    have h1 : ∀ k, ((sweep pr st).omega k)ᵀ = (sweep pr st).omega k :=
      foldl_pivot_update_symm pr _ st hsym
    have := ih (sweep pr st) h1 k
    simpa [solve_loop, Function.iterate_succ_apply] using this

/-- Helper: transposing commutes with symmetrization trivially — the
symmetrized matrix is exactly symmetric. -/
theorem symmetrize_transpose {d : ℕ} (C : Matrix (Fin d) (Fin d) ℚ) :
    (symmetrize C)ᵀ = symmetrize C := by
  ext i j
  simp only [symmetrize, Matrix.transpose_apply, Matrix.of_apply]
  ring

/-- C4: symmetry invariant of the precision estimates — if every
`omega[..., k]` is symmetric before a pivot update then it is symmetric
after it (row `p` and column `p` receive the same vector `y`, and only the
single diagonal entry `(p, p)` is set besides), and consequently every
precision estimate returned by the solver is exactly symmetric after every
pivot update of every sweep. -/
theorem precision_symmetry_invariant {n K : ℕ} (pr : SolveParams n K)
    (sqrtf : ℚ → ℚ) (logdetf : Matrix (Fin (n + 2)) (Fin (n + 2)) ℚ → ℚ)
    (T : Fin (K + 1) → ℕ) (X : (k : Fin (K + 1)) → Matrix (Fin (T k)) (Fin (n + 2)) ℚ)
    (rho : ℚ) (n_iter : ℕ) (ac rc : Bool) :
    (∀ (st : SolveState n K) (p : Fin (n + 2)),
        (∀ k, (st.omega k)ᵀ = st.omega k) →
        ∀ k, ((pivot_update pr st p).omega k)ᵀ = (pivot_update pr st p).omega k) ∧
    (∀ k, ((group_sparse_covariance_core sqrtf logdetf T X rho n_iter ac rc).2.1 k)ᵀ =
      (group_sparse_covariance_core sqrtf logdetf T X rho n_iter ac rc).2.1 k) := by
  constructor
  · exact fun st p h k => pivot_update_symm_aux pr st p h k
  · intro k
    exact solve_loop_symm _ n_iter _ (fun k' => Matrix.diagonal_transpose _) k

/-- Witness for C4 at a concrete 2-variable, 1-task state with symmetric
precision estimates. -/
theorem precision_symmetry_invariant_witness :
    (∀ k : Fin 1, ((stW.omega k)ᵀ = stW.omega k)) ∧
    (∀ k : Fin 1,
      ((pivot_update prW stW 0).omega k)ᵀ = (pivot_update prW stW 0).omega k) :=
  ⟨by decide,
    (precision_symmetry_invariant prW id (fun _ => 0) (fun _ => 1) (fun _ => 0)
        1 1 false false).1 stW 0 (by decide)⟩

/-- C6: the stored empirical covariance of every task equals the
symmetrization `(C + Cᵀ)/2` of the collaborator estimator's output `C`,
and every stored empirical covariance is therefore exactly symmetric, for
all inputs. -/
theorem emp_cov_symmetrization {n K : ℕ} (sqrtf : ℚ → ℚ)
    (logdetf : Matrix (Fin (n + 2)) (Fin (n + 2)) ℚ → ℚ)
    (T : Fin (K + 1) → ℕ) (X : (k : Fin (K + 1)) → Matrix (Fin (T k)) (Fin (n + 2)) ℚ)
    (rho : ℚ) (n_iter : ℕ) (ac rc : Bool) :
    (∀ k, (group_sparse_covariance_core sqrtf logdetf T X rho n_iter ac rc).1 k =
        symmetrize (empirical_covariance (X k) ac)) ∧
    (∀ (d : ℕ) (C : Matrix (Fin d) (Fin d) ℚ) (i j : Fin d),
        symmetrize C i j = (C i j + C j i) / 2) ∧
    (∀ (d : ℕ) (C : Matrix (Fin d) (Fin d) ℚ), (symmetrize C)ᵀ = symmetrize C) ∧
    (∀ k i j, (group_sparse_covariance_core sqrtf logdetf T X rho n_iter ac rc).1 k i j =
        (group_sparse_covariance_core sqrtf logdetf T X rho n_iter ac rc).1 k j i) := by
  refine ⟨fun k => rfl, fun d C i j => rfl, fun d C => symmetrize_transpose C, ?_⟩
  intro k i j
  have h1 : (group_sparse_covariance_core sqrtf logdetf T X rho n_iter ac rc).1 k =
      symmetrize (empirical_covariance (X k) ac) := rfl
  rw [h1]
  exact (congrFun (congrFun (symmetrize_transpose (empirical_covariance (X k) ac)) i) j).symm

/-- C9: frame property of the solve loop — the returned `emp_covs` equals
its value just after construction (covariance estimation followed by
symmetrization); the optimization loop only reads it, so the returned
value is also independent of the number of sweeps performed. -/
theorem emp_cov_frame {n K : ℕ} (sqrtf : ℚ → ℚ)
    (logdetf : Matrix (Fin (n + 2)) (Fin (n + 2)) ℚ → ℚ)
    (T : Fin (K + 1) → ℕ) (X : (k : Fin (K + 1)) → Matrix (Fin (T k)) (Fin (n + 2)) ℚ)
    (rho : ℚ) (n_iter : ℕ) (ac rc : Bool) :
    ((group_sparse_covariance_core sqrtf logdetf T X rho n_iter ac rc).1 =
      fun k => symmetrize (empirical_covariance (X k) ac)) ∧
    ((group_sparse_covariance_core sqrtf logdetf T X rho n_iter ac rc).1 =
      (group_sparse_covariance_core sqrtf logdetf T X rho 0 ac rc).1) :=
  ⟨rfl, rfl⟩

/-- C10: symmetrization is idempotent, and it fixes already-symmetric
matrices (exact arithmetic). -/
theorem symmetrize_idem {d : ℕ} (M : Matrix (Fin d) (Fin d) ℚ) :
    symmetrize (symmetrize M) = symmetrize M ∧ (Mᵀ = M → symmetrize M = M) := by
  constructor
  · ext i j
    simp only [symmetrize, Matrix.of_apply, Matrix.transpose_apply]
    ring
  · intro h
    ext i j
    have hij : M j i = M i j := by
      have := congrFun (congrFun h i) j
      simpa [Matrix.transpose_apply] using this
    simp only [symmetrize, Matrix.of_apply, Matrix.transpose_apply, hij]
    ring

/-- Witness for C10 at a concrete symmetric matrix. -/
theorem symmetrize_idem_witness :
    symmetrize (symmetrize !![(1 : ℚ), 2; 2, 5]) = symmetrize !![(1 : ℚ), 2; 2, 5] ∧
      (!![(1 : ℚ), 2; 2, 5])ᵀ = !![(1 : ℚ), 2; 2, 5] ∧
      symmetrize !![(1 : ℚ), 2; 2, 5] = !![(1 : ℚ), 2; 2, 5] :=
  ⟨(symmetrize_idem !![(1 : ℚ), 2; 2, 5]).1, by decide,
    (symmetrize_idem !![(1 : ℚ), 2; 2, 5]).2 (by decide)⟩

/-- Helper for C8: each pivot update appends exactly one cost entry iff
`return_costs` is set. -/
theorem pivot_update_costs_length {n K : ℕ} (pr : SolveParams n K)
    (st : SolveState n K) (p : Fin (n + 2)) :
    (pivot_update pr st p).costs.length =
      st.costs.length + (if pr.return_costs then 1 else 0) := by
  unfold pivot_update
  by_cases hrc : pr.return_costs <;> simp [hrc]

/-- Helper for C8: a fold of pivot updates appends one cost entry per
processed pivot iff `return_costs` is set. -/
theorem foldl_pivot_update_costs_length {n K : ℕ} (pr : SolveParams n K)
    (L : List (Fin (n + 2))) (st : SolveState n K) :
    (List.foldl (pivot_update pr) st L).costs.length =
      st.costs.length + (if pr.return_costs then L.length else 0) := by
  induction L generalizing st with
  | nil => simp
  | cons a t ih =>
    simp only [List.foldl_cons]
    rw [ih (pivot_update pr st a), pivot_update_costs_length]
    by_cases hrc : pr.return_costs <;> simp [hrc] <;> omega

/-- Helper for C8: the loop makes `m` sweeps of `n + 2` pivot updates and
the cost trace grows accordingly. -/
theorem solve_loop_costs_length {n K : ℕ} (pr : SolveParams n K) (m : ℕ)
    (st : SolveState n K) :
    (solve_loop pr m st).costs.length =
      st.costs.length + (if pr.return_costs then m * (n + 2) else 0) := by
  induction m generalizing st with
  | zero => simp [solve_loop]
  | succ m ih =>
    have h1 : solve_loop pr (m + 1) st = solve_loop pr m (sweep pr st) := by
      simp [solve_loop, Function.iterate_succ_apply]
    have h2 : (sweep pr st).costs.length =
        st.costs.length + (if pr.return_costs then n + 2 else 0) := by
      simpa [sweep] using foldl_pivot_update_costs_length pr (List.finRange (n + 2)) st
    rw [h1, ih (sweep pr st), h2]
    by_cases hrc : pr.return_costs <;> simp [hrc] <;> ring

/-- C8: fixed iteration budget and termination — for every `n_iter ≥ 1`
the (total, hence always terminating) solver runs exactly `n_iter` sweeps
of exactly `n_var` pivot updates each, with no early-stopping check, and
returns a cost trace iff `return_costs`, carrying exactly one entry per
pivot update: `n_iter * n_var` entries. -/
theorem fixed_budget_termination {n K : ℕ} (sqrtf : ℚ → ℚ)
    (logdetf : Matrix (Fin (n + 2)) (Fin (n + 2)) ℚ → ℚ)
    (T : Fin (K + 1) → ℕ) (X : (k : Fin (K + 1)) → Matrix (Fin (T k)) (Fin (n + 2)) ℚ)
    (rho : ℚ) (n_iter : ℕ) (hn : 1 ≤ n_iter) (ac rc : Bool) :
    ((group_sparse_covariance_core sqrtf logdetf T X rho n_iter ac rc).2.2.isSome ↔
      rc = true) ∧
    (∀ cs, (group_sparse_covariance_core sqrtf logdetf T X rho n_iter ac rc).2.2 =
        some cs → cs.length = n_iter * (n + 2)) := by
  constructor
  · cases rc <;> simp [group_sparse_covariance_core]
  · intro cs hcs
    cases rc with
    | false => simp [group_sparse_covariance_core] at hcs
    | true =>
      simp only [group_sparse_covariance_core, if_true, Option.some.injEq] at hcs
      rw [← hcs]
      simpa using solve_loop_costs_length
        (⟨sqrtf, logdetf, fun k => (T k : ℚ) / ((Finset.univ.sup T : ℕ) : ℚ),
          fun k => symmetrize (empirical_covariance (X k) ac), rho, true⟩ : SolveParams n (K + 1))
        n_iter
        ⟨fun k => Matrix.diagonal fun i =>
            1 / (symmetrize (empirical_covariance (X k) ac)) i i,
          fun _ => 0, fun _ => 0, 0, []⟩

/-- Witness for C8 at a concrete one-task, two-variable input with
`n_iter = 1` and `return_costs = true`. -/
theorem fixed_budget_termination_witness :
    (1 : ℕ) ≤ 1 ∧
    ((@group_sparse_covariance_core 0 0 id (fun _ => 0) (fun _ => 1) (fun _ => 0)
        0 1 false true).2.2.isSome ↔ true = true) ∧
    (∀ cs, (@group_sparse_covariance_core 0 0 id (fun _ => 0) (fun _ => 1) (fun _ => 0)
        0 1 false true).2.2 = some cs → cs.length = 1 * (0 + 2)) :=
  ⟨by decide,
    (fixed_budget_termination id (fun _ => 0) (fun _ => 1) (fun _ => 0) 0 1
      (by decide) false true).1,
    (fixed_budget_termination id (fun _ => 0) (fun _ => 1) (fun _ => 0) 0 1
      (by decide) false true).2⟩

/-- Helper for C3: shifting the starting point of the Newton iterate
sequence by one step. -/
theorem newton_seq_shift (f fprime : ℚ → ℚ) (x0 : ℚ) (j : ℕ) :
    newton_seq f fprime (newton_step f fprime x0) j = newton_seq f fprime x0 (j + 1) := by
  induction j with
  | zero => rfl
  | succ j ih => simp [newton_seq, ih]

/-- Helper for C3: whatever `scipy_newton` returns is a Newton iterate
reached within the iteration budget. -/
theorem scipy_newton_mem_seq (f fprime : ℚ → ℚ) (tol : ℚ) (fuel : ℕ) (x0 : ℚ) :
    ∃ j ≤ fuel, scipy_newton f fprime tol fuel x0 = newton_seq f fprime x0 j := by
  induction fuel generalizing x0 with
  | zero => exact ⟨0, le_refl 0, rfl⟩
  | succ fuel ih =>
    by_cases h : |newton_step f fprime x0 - x0| < tol
    · exact ⟨1, by omega, by simp [scipy_newton, h, newton_seq]⟩
    · obtain ⟨j, hj, he⟩ := ih (newton_step f fprime x0)
      refine ⟨j + 1, by omega, ?_⟩
      rw [newton_seq_shift] at he
      simpa [scipy_newton, h] using he

/-- C3: Newton-Raphson non-convergence is non-fatal — whenever the else
branch runs (`c2 > rho`), the multiplier `alpha` is a Newton iterate
reached within at most 50 iterations; when additionally the residual
exceeds `0.1`, the step emits exactly one warning and still writes
`y[k][m] = alpha·c[k]/(1 + alpha·q[k])` for every task with the last
`alpha` obtained — the root-find never aborts the solve. -/
theorem newton_nonconvergence_nonfatal {n K : ℕ} (sqrtf : ℚ → ℚ)
    (n_samples : Fin K → ℚ)
    (emp_covs : Fin K → Matrix (Fin (n + 2)) (Fin (n + 2)) ℚ) (rho : ℚ)
    (Winv : Fin K → Matrix (Fin (n + 1)) (Fin (n + 1)) ℚ) (p : Fin (n + 2))
    (u : Fin K → Fin (n + 1) → ℚ) (st : (Fin K → Fin (n + 1) → ℚ) × ℕ)
    (m : Fin (n + 1))
    (hc2 : ¬ sqrtf (coord_c n_samples emp_covs Winv p u st.1 m ⬝ᵥ
        coord_c n_samples emp_covs Winv p u st.1 m) ≤ rho)
    (hrem : 0.1 < |coord_remainder n_samples emp_covs Winv p u st.1 m rho|) :
    (∃ j ≤ 50, coord_alpha n_samples emp_covs Winv p u st.1 m rho =
      newton_seq
        (fun a => quad_trust_region a (coord_q n_samples emp_covs Winv p m)
          (fun k => 2 * (coord_c n_samples emp_covs Winv p u st.1 m k *
            coord_c n_samples emp_covs Winv p u st.1 m k) *
            coord_q n_samples emp_covs Winv p m k)
          (fun k => coord_c n_samples emp_covs Winv p u st.1 m k *
            coord_c n_samples emp_covs Winv p u st.1 m k) (rho ^ 2))
        (fun a => quad_trust_region_deriv a (coord_q n_samples emp_covs Winv p m)
          (fun k => 2 * (coord_c n_samples emp_covs Winv p u st.1 m k *
            coord_c n_samples emp_covs Winv p u st.1 m k) *
            coord_q n_samples emp_covs Winv p m k)
          (fun k => coord_c n_samples emp_covs Winv p u st.1 m k *
            coord_c n_samples emp_covs Winv p u st.1 m k) (rho ^ 2))
        0 j) ∧
    ((coord_step sqrtf n_samples emp_covs rho Winv p u st m).2 = st.2 + 1) ∧
    (∀ k, (coord_step sqrtf n_samples emp_covs rho Winv p u st m).1 k m =
      coord_alpha n_samples emp_covs Winv p u st.1 m rho *
        coord_c n_samples emp_covs Winv p u st.1 m k /
        (1 + coord_alpha n_samples emp_covs Winv p u st.1 m rho *
          coord_q n_samples emp_covs Winv p m k)) := by
  refine ⟨?_, ?_, ?_⟩
  · simpa [coord_alpha] using scipy_newton_mem_seq
      (fun a => quad_trust_region a (coord_q n_samples emp_covs Winv p m)
        (fun k => 2 * (coord_c n_samples emp_covs Winv p u st.1 m k *
          coord_c n_samples emp_covs Winv p u st.1 m k) *
          coord_q n_samples emp_covs Winv p m k)
        (fun k => coord_c n_samples emp_covs Winv p u st.1 m k *
          coord_c n_samples emp_covs Winv p u st.1 m k) (rho ^ 2))
      (fun a => quad_trust_region_deriv a (coord_q n_samples emp_covs Winv p m)
        (fun k => 2 * (coord_c n_samples emp_covs Winv p u st.1 m k *
          coord_c n_samples emp_covs Winv p u st.1 m k) *
          coord_q n_samples emp_covs Winv p m k)
        (fun k => coord_c n_samples emp_covs Winv p u st.1 m k *
          coord_c n_samples emp_covs Winv p u st.1 m k) (rho ^ 2))
      newton_tol 50 0
  · simp [coord_step, hc2, hrem]
  · intro k
    simp [coord_step, hc2]

/-- Witness for C3 at a concrete one-task input (`emp_covs[p,p] = 0` makes
the curvature vanish, so the residual stays at `-1` whatever `alpha` the
root-find returns). -/
theorem newton_nonconvergence_nonfatal_witness :
    (¬ id (@coord_c 0 1 (fun _ => 1) (fun _ => 0) (fun _ => 1) 0 (fun _ _ => 1)
        (fun _ _ => 0) 0 ⬝ᵥ @coord_c 0 1 (fun _ => 1) (fun _ => 0) (fun _ => 1) 0
        (fun _ _ => 1) (fun _ _ => 0) 0) ≤ 0) ∧
    ((0.1 : ℚ) < |@coord_remainder 0 1 (fun _ => 1) (fun _ => 0) (fun _ => 1) 0
        (fun _ _ => 1) (fun _ _ => 0) 0 0|) ∧
    ((@coord_step 0 1 id (fun _ => 1) (fun _ => 0) 0 (fun _ => 1) 0
        (fun _ _ => 1) (fun _ _ => 0, 0) 0).2 = 0 + 1) :=
  ⟨by
      simp [coord_c, Matrix.dotProduct],
    by
      simp only [coord_remainder, coord_q, coord_c, quad_trust_region]
      norm_num,
    (newton_nonconvergence_nonfatal id (fun _ => 1) (fun _ => 0) 0 (fun _ => 1) 0
      (fun _ _ => 1) (fun _ _ => 0, 0) 0
      (by
        simp [coord_c, Matrix.dotProduct])
      (by
        simp only [coord_remainder, coord_q, coord_c, quad_trust_region]
        norm_num)).2.1⟩

/-- Helper for C1: when the joint norm test succeeds, the step zeroes
column `m` in every task. -/
theorem coord_step_thresh_zero {n K : ℕ} (sqrtf : ℚ → ℚ) (n_samples : Fin K → ℚ)
    (emp_covs : Fin K → Matrix (Fin (n + 2)) (Fin (n + 2)) ℚ) (rho : ℚ)
    (Winv : Fin K → Matrix (Fin (n + 1)) (Fin (n + 1)) ℚ) (p : Fin (n + 2))
    (u : Fin K → Fin (n + 1) → ℚ) (st : (Fin K → Fin (n + 1) → ℚ) × ℕ)
    (m : Fin (n + 1))
    (h : sqrtf (coord_c n_samples emp_covs Winv p u st.1 m ⬝ᵥ
      coord_c n_samples emp_covs Winv p u st.1 m) ≤ rho) (k : Fin K) :
    (coord_step sqrtf n_samples emp_covs rho Winv p u st m).1 k m = 0 := by
  simp [coord_step, h]

/-- Helper for C1: a coordinate-descent step only writes its own column. -/
theorem coord_step_frame {n K : ℕ} (sqrtf : ℚ → ℚ) (n_samples : Fin K → ℚ)
    (emp_covs : Fin K → Matrix (Fin (n + 2)) (Fin (n + 2)) ℚ) (rho : ℚ)
    (Winv : Fin K → Matrix (Fin (n + 1)) (Fin (n + 1)) ℚ) (p : Fin (n + 2))
    (u : Fin K → Fin (n + 1) → ℚ) (st : (Fin K → Fin (n + 1) → ℚ) × ℕ)
    (m' m : Fin (n + 1)) (hne : m ≠ m') (k : Fin K) :
    (coord_step sqrtf n_samples emp_covs rho Winv p u st m').1 k m = st.1 k m := by
  simp only [coord_step]
  split_ifs <;> simp [hne]

/-- Helper for C1: a fold of coordinate-descent steps over other columns
leaves column `m` unchanged. -/
theorem coord_foldl_frame {n K : ℕ} (sqrtf : ℚ → ℚ) (n_samples : Fin K → ℚ)
    (emp_covs : Fin K → Matrix (Fin (n + 2)) (Fin (n + 2)) ℚ) (rho : ℚ)
    (Winv : Fin K → Matrix (Fin (n + 1)) (Fin (n + 1)) ℚ) (p : Fin (n + 2))
    (u : Fin K → Fin (n + 1) → ℚ) (L : List (Fin (n + 1)))
    (st : (Fin K → Fin (n + 1) → ℚ) × ℕ) (m : Fin (n + 1))
    (hL : ∀ x ∈ L, m ≠ x) (k : Fin K) :
    (List.foldl (coord_step sqrtf n_samples emp_covs rho Winv p u) st L).1 k m =
      st.1 k m := by
  induction L generalizing st with
  | nil => rfl
  | cons a t ih =>
    simp only [List.foldl_cons]
    rw [ih (coord_step sqrtf n_samples emp_covs rho Winv p u st a)
      (fun x hx => hL x (List.mem_cons_of_mem a hx))]
    exact coord_step_frame sqrtf n_samples emp_covs rho Winv p u st a m
      (hL a (List.mem_cons_self a t)) k

/-- Helper for C1: splitting the coordinate loop at position `m`. -/
theorem finRange_decomp {N : ℕ} (m : Fin N) :
    List.finRange N =
      (List.finRange N).take (m : ℕ) ++ m :: (List.finRange N).drop ((m : ℕ) + 1) := by
  have hlen : (m : ℕ) < (List.finRange N).length := by
    simpa using m.isLt
  conv_lhs => rw [← List.take_append_drop (m : ℕ) (List.finRange N)]
  congr 1
  rw [List.drop_eq_getElem_cons hlen]
  congr 1
  apply Fin.ext
  simp

/-- Helper for C1: the coordinates after position `m` differ from `m`. -/
theorem mem_drop_finRange_ne {N : ℕ} (m x : Fin N)
    (hx : x ∈ (List.finRange N).drop ((m : ℕ) + 1)) : m ≠ x := by
  obtain ⟨i, hi, hget⟩ := List.getElem_of_mem hx
  rw [List.getElem_drop] at hget
  have hxv : (x : ℕ) = (m : ℕ) + 1 + i := by
    rw [← hget]
    simp
  intro he
  rw [← he] at hxv
  omega

/-- C1: shared sparsity thresholding — at any pivot `p` and coordinate
`m`, if the computed joint norm `c2` (at the state the single pass has
reached when it processes `m`) is at most `rho`, the solver zeroes
`y[k][m]` for every task simultaneously; later coordinates never touch
column `m` again, so after the pivot's symmetric write-back the
off-diagonal entries at that coordinate are exactly zero in every task's
precision estimate. -/
theorem shared_sparsity_threshold {n K : ℕ} (pr : SolveParams n K)
    (st : SolveState n K) (p : Fin (n + 2)) (m : Fin (n + 1))
    (h : pr.sqrtf
        (coord_c pr.n_samples pr.emp_covs (pivot_W_Winv st p).2 p
            (extract_u pr.emp_covs p) (coord_pass_upto pr st p m).1 m ⬝ᵥ
          coord_c pr.n_samples pr.emp_covs (pivot_W_Winv st p).2 p
            (extract_u pr.emp_covs p) (coord_pass_upto pr st p m).1 m) ≤ pr.rho) :
    (∀ k, pivot_y pr st p k m = 0) ∧
    (∀ k, (pivot_update pr st p).omega k (p.succAbove m) p = 0) ∧
    (∀ k, (pivot_update pr st p).omega k p (p.succAbove m) = 0) := by
  have hy : ∀ k, pivot_y pr st p k m = 0 := by
    intro k
    unfold pivot_y coord_pass
    rw [finRange_decomp m, List.foldl_append, List.foldl_cons]
    have hframe := coord_foldl_frame pr.sqrtf pr.n_samples pr.emp_covs pr.rho
      (pivot_W_Winv st p).2 p (extract_u pr.emp_covs p)
      ((List.finRange (n + 1)).drop ((m : ℕ) + 1))
      (coord_step pr.sqrtf pr.n_samples pr.emp_covs pr.rho (pivot_W_Winv st p).2 p
        (extract_u pr.emp_covs p) (coord_pass_upto pr st p m) m)
      m (fun x hx => mem_drop_finRange_ne m x hx) k
    exact hframe.trans (coord_step_thresh_zero pr.sqrtf pr.n_samples pr.emp_covs pr.rho
      (pivot_W_Winv st p).2 p (extract_u pr.emp_covs p) (coord_pass_upto pr st p m) m h k)
  refine ⟨hy, ?_, ?_⟩ <;> intro k
  · rw [pivot_update_omega_apply, if_neg (Fin.succAbove_ne p m), if_pos rfl,
      unskip_succAbove]
    exact hy k
  · rw [pivot_update_omega_apply, if_pos rfl, if_neg (Fin.succAbove_ne p m),
      unskip_succAbove]
    exact hy k

/-- Witness for C1 at the tiny concrete configuration: with identity
covariances and zero off-diagonals the joint norm is `0 ≤ rho = 1`, and
the pivot update leaves exact zeros at the coordinate in the single task. -/
theorem shared_sparsity_threshold_witness :
    (prW.sqrtf
        (coord_c prW.n_samples prW.emp_covs (pivot_W_Winv stW 0).2 0
            (extract_u prW.emp_covs 0) (coord_pass_upto prW stW 0 0).1 0 ⬝ᵥ
          coord_c prW.n_samples prW.emp_covs (pivot_W_Winv stW 0).2 0
            (extract_u prW.emp_covs 0) (coord_pass_upto prW stW 0 0).1 0) ≤ prW.rho) ∧
    (∀ k, pivot_y prW stW 0 k 0 = 0) ∧
    (∀ k, (pivot_update prW stW 0).omega k (Fin.succAbove 0 0) 0 = 0) ∧
    (∀ k, (pivot_update prW stW 0).omega k 0 (Fin.succAbove 0 0) = 0) :=
  ⟨by
      simp [prW, stW, coord_pass_upto, extract_y, extract_u, coord_c,
        Matrix.dotProduct, Matrix.one_apply, Fin.succAbove],
    shared_sparsity_threshold prW stW 0 0
      (by
        simp [prW, stW, coord_pass_upto, extract_y, extract_u, coord_c,
          Matrix.dotProduct, Matrix.one_apply, Fin.succAbove])⟩

/-- Helper for C5: `len(set(l)) ≤ 1` exactly when all entries agree. -/
theorem dedup_length_le_one_iff {l : List ℕ} :
    ¬ 1 < l.dedup.length ↔ ∀ a ∈ l, ∀ b ∈ l, a = b := by
  constructor
  · intro h a ha b hb
    have ha' : a ∈ l.dedup := List.mem_dedup.mpr ha
    have hb' : b ∈ l.dedup := List.mem_dedup.mpr hb
    rcases hd : l.dedup with _ | ⟨x, _ | ⟨y, t⟩⟩
    · rw [hd] at ha'
      exact absurd ha' (List.not_mem_nil a)
    · rw [hd] at ha' hb'
      simp only [List.mem_singleton] at ha' hb'
      rw [ha', hb']
    · rw [hd] at h
      simp at h
  · intro hall
    rcases hd : l.dedup with _ | ⟨x, _ | ⟨y, t⟩⟩
    · simp [hd]
    · simp [hd]
    · exfalso
      have hnd := l.nodup_dedup
      rw [hd] at hnd
      have hx : x ∈ l := List.mem_dedup.mp (by rw [hd]; exact List.mem_cons_self x _)
      have hy : y ∈ l := List.mem_dedup.mp
        (by rw [hd]; exact List.mem_cons_of_mem x (List.mem_cons_self y t))
      have hxy : x ≠ y := by
        intro he
        subst he
        exact (List.nodup_cons.mp hnd).1 (List.mem_cons_self x t)
      exact hxy (hall x hx y hy)

/-- Helper for C5: the source's `len(set(n_tasks)) > 1` test is exactly the
"two tasks disagree on column count" condition. -/
theorem feature_mismatch_iff_dedup (sigs : List PyArray2D) :
    feature_mismatch (.iterable sigs) ↔
      1 < (sigs.map PyArray2D.cols).dedup.length := by
  unfold feature_mismatch
  constructor
  · rintro ⟨s1, hs1, s2, hs2, hne⟩
    by_contra h1
    exact hne (dedup_length_le_one_iff.mp h1 s1.cols (List.mem_map_of_mem _ hs1)
      s2.cols (List.mem_map_of_mem _ hs2))
  · intro h
    by_contra hno
    refine absurd h (dedup_length_le_one_iff.mpr ?_)
    intro a ha b hb
    obtain ⟨s1, hs1, rfl⟩ := List.mem_map.mp ha
    obtain ⟨s2, hs2, rfl⟩ := List.mem_map.mp hb
    by_contra hne
    exact hno ⟨s1, hs1, s2, hs2, hne⟩

/-- C5: input validation raises-iff and atomicity — `gsc_validate` raises
the rho error exactly when rho is not a non-negative number, the
iterability error exactly when (rho being fine) the sample collection is
not iterable, the feature error exactly when (both previous checks
passing) two tasks have differing variable counts; it succeeds exactly
when all three checks pass; any validation error makes the entry point
return that error before any computation, and passing inputs make the
entry point return a computed result and no validation error. -/
theorem input_validation_iff (rho : RhoArg) (signals : SignalsArg)
    (sqrtf : ℚ → ℚ) (logdetf : (d : ℕ) → Matrix (Fin d) (Fin d) ℚ → ℚ)
    (n_iter : ℕ) (ac rc : Bool) :
    ((∃ s, gsc_validate rho signals = .error (.rhoNotNonneg s)) ↔ bad_rho rho) ∧
    ((∃ c, gsc_validate rho signals = .error (.signalsNotIterable c)) ↔
      ¬ bad_rho rho ∧ ∃ c, signals = .notIterable c) ∧
    ((∃ l, gsc_validate rho signals = .error (.featureMismatch l)) ↔
      ¬ bad_rho rho ∧ feature_mismatch signals) ∧
    (gsc_validate rho signals = .ok () ↔
      ¬ bad_rho rho ∧ (∃ sigs, signals = .iterable sigs) ∧
        ¬ feature_mismatch signals) ∧
    (∀ e, gsc_validate rho signals = .error e →
      group_sparse_covariance sqrtf logdetf signals rho n_iter ac rc = .error e) ∧
    (gsc_validate rho signals = .ok () →
      ∃ out, group_sparse_covariance sqrtf logdetf signals rho n_iter ac rc =
        .ok out) := by
  rcases rho with x | s
  · rcases signals with sigs | cls
    · by_cases hx : x < 0
      · simp [gsc_validate, group_sparse_covariance, bad_rho, hx,
          feature_mismatch_iff_dedup]
      · by_cases hmm : 1 < (sigs.map PyArray2D.cols).dedup.length
        · simp [gsc_validate, group_sparse_covariance, bad_rho, hx, hmm,
            feature_mismatch_iff_dedup]
        · simp [gsc_validate, group_sparse_covariance, bad_rho, hx, hmm,
            feature_mismatch_iff_dedup]
    · by_cases hx : x < 0 <;>
        simp [gsc_validate, group_sparse_covariance, bad_rho, hx, feature_mismatch]
  · rcases signals with sigs | cls <;>
      simp [gsc_validate, group_sparse_covariance, bad_rho, feature_mismatch,
        feature_mismatch_iff_dedup]

/-- Witness for C5 at the spec's own example `rho = -1` (iterable, empty
task list): the designated rho error is raised and aborts the entry
point. -/
theorem input_validation_iff_witness :
    bad_rho (.num (-1)) ∧
    (∃ s, gsc_validate (.num (-1)) (.iterable []) = .error (.rhoNotNonneg s)) ∧
    (∀ e, gsc_validate (.num (-1)) (.iterable []) = .error e →
      group_sparse_covariance id (fun _ _ => 0) (.iterable []) (.num (-1)) 1
        false false = .error e) :=
  ⟨by norm_num [bad_rho],
    (input_validation_iff (.num (-1)) (.iterable []) id (fun _ _ => 0) 1
        false false).1.mpr (by norm_num [bad_rho]),
    (input_validation_iff (.num (-1)) (.iterable []) id (fun _ _ => 0) 1
        false false).2.2.2.2.1⟩

/-- Helper: a rank-1 matrix times a matrix. -/
theorem vecMulVec_mul {d : ℕ} (u v : Fin d → ℚ) (M : Matrix (Fin d) (Fin d) ℚ) :
    Matrix.vecMulVec u v * M = Matrix.vecMulVec u (v ᵥ* M) := by
  ext i j
  simp only [Matrix.mul_apply, Matrix.vecMulVec_apply, Matrix.vecMul,
    Matrix.dotProduct, Finset.mul_sum]
  exact Finset.sum_congr rfl fun k _ => by ring

/-- Helper: a matrix times a rank-1 matrix. -/
theorem mul_vecMulVec {d : ℕ} (M : Matrix (Fin d) (Fin d) ℚ) (u v : Fin d → ℚ) :
    M * Matrix.vecMulVec u v = Matrix.vecMulVec (M *ᵥ u) v := by
  ext i j
  simp only [Matrix.mul_apply, Matrix.vecMulVec_apply, Matrix.mulVec,
    Matrix.dotProduct, Finset.sum_mul]
  exact Finset.sum_congr rfl fun k _ => by ring

/-- Helper: the product of two rank-1 matrices. -/
theorem vecMulVec_mul_vecMulVec {d : ℕ} (u v x y : Fin d → ℚ) :
    Matrix.vecMulVec u v * Matrix.vecMulVec x y =
      (v ⬝ᵥ x) • Matrix.vecMulVec u y := by
  ext i j
  simp only [Matrix.mul_apply, Matrix.vecMulVec_apply, Matrix.smul_apply,
    smul_eq_mul, Matrix.dotProduct, Finset.sum_mul]
  exact Finset.sum_congr rfl fun k _ => by ring

/-- Helper: a rank-1 matrix applied to a vector. -/
theorem vecMulVec_mulVec {d : ℕ} (u w x : Fin d → ℚ) :
    Matrix.vecMulVec u w *ᵥ x = (w ⬝ᵥ x) • u := by
  ext i
  simp only [Matrix.mulVec, Matrix.vecMulVec_apply, Matrix.dotProduct,
    Pi.smul_apply, smul_eq_mul, Finset.sum_mul]
  exact Finset.sum_congr rfl fun k _ => by ring

/-- Helper: elementwise division on the left factor of a rank-1 matrix is a
scalar correction. -/
theorem vecMulVec_div_left {d : ℕ} (w : Fin d → ℚ) (c : ℚ) (x : Fin d → ℚ) :
    Matrix.vecMulVec (fun i => w i / c) x = c⁻¹ • Matrix.vecMulVec w x := by
  ext i j
  simp only [Matrix.vecMulVec_apply, Matrix.smul_apply, smul_eq_mul,
    div_eq_mul_inv]
  ring

/-- Helper: elementwise division on the right factor of a rank-1 matrix is
a scalar correction. -/
theorem vecMulVec_div_right {d : ℕ} (w : Fin d → ℚ) (c : ℚ) (x : Fin d → ℚ) :
    Matrix.vecMulVec w (fun j => x j / c) = c⁻¹ • Matrix.vecMulVec w x := by
  ext i j
  simp only [Matrix.vecMulVec_apply, Matrix.smul_apply, smul_eq_mul,
    div_eq_mul_inv]
  ring

/-- Sherman-Morrison: the rank-1 corrected inverse is a left inverse of the
rank-1 updated matrix, whenever the correction denominator is nonzero. -/
theorem sherman_morrison {d : ℕ} (A B : Matrix (Fin d) (Fin d) ℚ) (u v : Fin d → ℚ)
    (hBA : B * A = 1) (hd : 1 + v ⬝ᵥ (B *ᵥ u) ≠ 0) :
    (B - (1 + v ⬝ᵥ (B *ᵥ u))⁻¹ • Matrix.vecMulVec (B *ᵥ u) (v ᵥ* B)) *
      (A + Matrix.vecMulVec u v) = 1 := by
  have hb1 : Matrix.vecMulVec (B *ᵥ u) (v ᵥ* B) * A = Matrix.vecMulVec (B *ᵥ u) v := by
    rw [vecMulVec_mul, Matrix.vecMul_vecMul, hBA, Matrix.vecMul_one]
  have hb2 : B * Matrix.vecMulVec u v = Matrix.vecMulVec (B *ᵥ u) v :=
    mul_vecMulVec B u v
  have hb3 : Matrix.vecMulVec (B *ᵥ u) (v ᵥ* B) * Matrix.vecMulVec u v =
      (v ⬝ᵥ (B *ᵥ u)) • Matrix.vecMulVec (B *ᵥ u) v := by
    rw [vecMulVec_mul_vecMulVec, ← Matrix.dotProduct_mulVec]
  have hco : (1 + v ⬝ᵥ (B *ᵥ u))⁻¹ * (v ⬝ᵥ (B *ᵥ u)) =
      1 - (1 + v ⬝ᵥ (B *ᵥ u))⁻¹ := by
    field_simp
  rw [Matrix.sub_mul, Matrix.mul_add, Matrix.smul_mul, Matrix.mul_add, smul_add,
    hBA, hb1, hb2, hb3, smul_smul, hco, sub_smul, one_smul]
  abel

/-- Helper: replacing a row is a rank-1 additive update. -/
theorem updateRow_eq_add {d : ℕ} (A : Matrix (Fin d) (Fin d) ℚ) (q : Fin d)
    (h : Fin d → ℚ) :
    A.updateRow q h = A + Matrix.vecMulVec (Pi.single q 1) (fun j => h j - A q j) := by
  ext i j
  rw [Matrix.updateRow_apply]
  by_cases hi : i = q <;>
    simp [hi, Matrix.vecMulVec_apply, Pi.single_apply]

/-- Helper: replacing a column is a rank-1 additive update. -/
theorem updateColumn_eq_add {d : ℕ} (A : Matrix (Fin d) (Fin d) ℚ) (q : Fin d)
    (v : Fin d → ℚ) :
    A.updateColumn q v = A + Matrix.vecMulVec (fun i => v i - A i q) (Pi.single q 1) := by
  ext i j
  rw [Matrix.updateColumn_apply]
  by_cases hj : j = q <;>
    simp [hj, Matrix.vecMulVec_apply, Pi.single_apply]

/-- Helper: extracting a column is multiplication by a basis vector. -/
theorem mulVec_single_eq_col {d : ℕ} (M : Matrix (Fin d) (Fin d) ℚ) (q : Fin d) :
    M *ᵥ Pi.single q 1 = fun i => M i q := by
  funext i
  rw [Matrix.mulVec_single]
  exact mul_one _

/-- Helper: extracting a row is multiplication by a basis vector. -/
theorem single_vecMul_eq_row {d : ℕ} (M : Matrix (Fin d) (Fin d) ℚ) (q : Fin d) :
    Pi.single q 1 ᵥ* M = fun j => M q j := by
  funext j
  rw [Matrix.single_vecMul]
  simp

/-- Helper: `linalg_inv` produces a left inverse on invertible input. -/
theorem linalg_inv_mul {d : ℕ} (A : Matrix (Fin d) (Fin d) ℚ) (h : A.det ≠ 0) :
    linalg_inv A * A = 1 := by
  unfold linalg_inv
  rw [Matrix.smul_mul, Matrix.adjugate_mul, smul_smul, inv_mul_cancel₀ h, one_smul]

/-- Helper for C2: the row half of `update_submatrix` is an exact
Sherman-Morrison update — given a left inverse of `sub` and a nonzero
row-step denominator, the corrected inverse inverts the row-replaced
matrix. -/
theorem update_submatrix_row_correct {d : ℕ}
    (full : Matrix (Fin (d + 1)) (Fin (d + 1)) ℚ)
    (sub sub_inv : Matrix (Fin d) (Fin d) ℚ) (q : Fin d)
    (hinv : sub_inv * sub = 1) (hd : row_denom full sub sub_inv q ≠ 0) :
    (update_submatrix_row full sub sub_inv q).1 =
      sub.updateRow q (update_vectors full q).1 ∧
    (update_submatrix_row full sub sub_inv q).2 *
      (update_submatrix_row full sub sub_inv q).1 = 1 := by
  refine ⟨rfl, ?_⟩
  have hd2 : 1 + (fun j => (update_vectors full q).1 j - sub q j) ⬝ᵥ
      (sub_inv *ᵥ Pi.single q 1) ≠ 0 := by
    rw [mulVec_single_eq_col]
    exact hd
  simp only [update_submatrix_row]
  rw [vecMulVec_div_left, ← mulVec_single_eq_col sub_inv q,
    updateRow_eq_add sub q (update_vectors full q).1]
  exact sherman_morrison sub sub_inv (Pi.single q 1)
    (fun j => (update_vectors full q).1 j - sub q j) hinv hd2

/-- Helper for C2: the column half of `update_submatrix` is an exact
Sherman-Morrison update. -/
theorem update_submatrix_col_correct {d : ℕ}
    (full : Matrix (Fin (d + 1)) (Fin (d + 1)) ℚ)
    (sub sub_inv : Matrix (Fin d) (Fin d) ℚ) (q : Fin d)
    (hinv : sub_inv * sub = 1)
    (hd : 1 + (fun j => sub_inv q j) ⬝ᵥ
      (fun i => (update_vectors full q).2 i - sub i q) ≠ 0) :
    (update_submatrix_col full sub sub_inv q).1 =
      sub.updateColumn q (update_vectors full q).2 ∧
    (update_submatrix_col full sub sub_inv q).2 *
      (update_submatrix_col full sub sub_inv q).1 = 1 := by
  refine ⟨rfl, ?_⟩
  have hdot : Pi.single q 1 ⬝ᵥ
      (sub_inv *ᵥ fun i => (update_vectors full q).2 i - sub i q) =
      (fun j => sub_inv q j) ⬝ᵥ (fun i => (update_vectors full q).2 i - sub i q) := by
    rw [Matrix.single_dotProduct, one_mul]
    rfl
  have hd2 : 1 + Pi.single q 1 ⬝ᵥ
      (sub_inv *ᵥ fun i => (update_vectors full q).2 i - sub i q) ≠ 0 := by
    rw [hdot]
    exact hd
  simp only [update_submatrix_col]
  rw [vecMulVec_div_right]
  have key := sherman_morrison sub sub_inv
    (fun i => (update_vectors full q).2 i - sub i q) (Pi.single q 1) hinv hd2
  rw [single_vecMul_eq_row sub_inv q, hdot,
    ← updateColumn_eq_add sub q (update_vectors full q).2] at key
  exact key

/-- Helper: away from the excluded index, excluding `q` and excluding
`q + 1` agree. -/
theorem succAbove_castSucc_eq_succ {d : ℕ} (q i : Fin d) (h : i ≠ q) :
    q.castSucc.succAbove i = q.succ.succAbove i := by
  rcases lt_or_gt_of_ne h with hlt | hgt
  · rw [Fin.succAbove_castSucc_of_lt q i hlt, Fin.succAbove_succ_of_le q i hlt.le]
  · rw [Fin.succAbove_castSucc_of_le q i hgt.le, Fin.succAbove_succ_of_lt q i hgt]

/-- Helper for C2: replacing row `q` by `h` and column `q` by `v` in the
submatrix excluding `q` yields exactly the submatrix excluding `q + 1`. -/
theorem updateRowCol_eq_submatrixAt {d : ℕ}
    (full : Matrix (Fin (d + 1)) (Fin (d + 1)) ℚ) (q : Fin d) :
    ((submatrixAt full q.castSucc).updateRow q (update_vectors full q).1).updateColumn
        q (update_vectors full q).2 = submatrixAt full q.succ := by
  ext i j
  rw [Matrix.updateColumn_apply, Matrix.updateRow_apply]
  by_cases hj : j = q
  · subst hj
    simp [update_vectors, submatrixAt, Matrix.submatrix_apply,
      Fin.succAbove_succ_self]
  · by_cases hi : i = q
    · subst hi
      simp [update_vectors, submatrixAt, Matrix.submatrix_apply,
        Fin.succAbove_succ_self, hj]
    · simp [submatrixAt, Matrix.submatrix_apply, hj, hi,
        succAbove_castSucc_eq_succ _ _ hi, succAbove_castSucc_eq_succ _ _ hj]

/-- Helper for C2: when the target submatrix is invertible, the column-step
denominator cannot vanish (otherwise `update_submatrix`'s column step would
exhibit a kernel vector of the target). -/
theorem col_denom_ne_zero {d : ℕ} (full : Matrix (Fin (d + 1)) (Fin (d + 1)) ℚ)
    (sub sub_inv : Matrix (Fin d) (Fin d) ℚ) (q : Fin d)
    (hsub : sub = submatrixAt full q.castSucc) (hinv : sub_inv * sub = 1)
    (hd1 : row_denom full sub sub_inv q ≠ 0)
    (hnew : (submatrixAt full q.succ).det ≠ 0) :
    col_denom full sub sub_inv q ≠ 0 := by
  obtain ⟨hr1, hr2⟩ := update_submatrix_row_correct full sub sub_inv q hinv hd1
  have hr2' : (update_submatrix_row full sub sub_inv q).1 *
      (update_submatrix_row full sub sub_inv q).2 = 1 :=
    Matrix.mul_eq_one_comm.mpr hr2
  intro hzero
  unfold col_denom at hzero
  set r := update_submatrix_row full sub sub_inv q with hrdef
  set U : Fin d → ℚ := fun i => (update_vectors full q).2 i - r.1 i q with hU
  have hxq : (r.2 *ᵥ U) q = -1 := by
    have h0 : (1 : ℚ) + (fun j => r.2 q j) ⬝ᵥ U = 0 := hzero
    have : (r.2 *ᵥ U) q = (fun j => r.2 q j) ⬝ᵥ U := rfl
    rw [this]
    linarith
  have hA : submatrixAt full q.succ =
      r.1 + Matrix.vecMulVec U (Pi.single q 1) := by
    rw [← updateRowCol_eq_submatrixAt full q, ← hsub, ← hr1,
      updateColumn_eq_add r.1 q (update_vectors full q).2, hU]
  have hAx : submatrixAt full q.succ *ᵥ (r.2 *ᵥ U) = 0 := by
    rw [hA, Matrix.add_mulVec, Matrix.mulVec_mulVec, hr2', Matrix.one_mulVec,
      vecMulVec_mulVec, Matrix.single_dotProduct, one_mul, hxq]
    funext i
    simp
  have hx0 : r.2 *ᵥ U = 0 := by
    calc r.2 *ᵥ U =
        (linalg_inv (submatrixAt full q.succ) * submatrixAt full q.succ) *ᵥ
          (r.2 *ᵥ U) := by
          rw [linalg_inv_mul _ hnew, Matrix.one_mulVec]
      _ = linalg_inv (submatrixAt full q.succ) *ᵥ
          (submatrixAt full q.succ *ᵥ (r.2 *ᵥ U)) :=
          (Matrix.mulVec_mulVec (r.2 *ᵥ U) (linalg_inv (submatrixAt full q.succ))
            (submatrixAt full q.succ)).symm
      _ = 0 := by rw [hAx, Matrix.mulVec_zero]
  have hU0 : U = 0 := by
    calc U = (r.1 * r.2) *ᵥ U := by rw [hr2', Matrix.one_mulVec]
      _ = r.1 *ᵥ (r.2 *ᵥ U) := (Matrix.mulVec_mulVec U r.1 r.2).symm
      _ = 0 := by rw [hx0, Matrix.mulVec_zero]
  rw [hU0] at hxq
  simp at hxq

/-- Helper for C2: one `update_submatrix` step is exact, given exact input,
a nonzero row-step denominator, and an invertible target submatrix. -/
theorem update_submatrix_step {d : ℕ} (full : Matrix (Fin (d + 1)) (Fin (d + 1)) ℚ)
    (sub sub_inv : Matrix (Fin d) (Fin d) ℚ) (q : Fin d)
    (hsub : sub = submatrixAt full q.castSucc) (hinv : sub_inv * sub = 1)
    (hd1 : row_denom full sub sub_inv q ≠ 0)
    (hnew : (submatrixAt full q.succ).det ≠ 0) :
    (update_submatrix full sub sub_inv q).1 = submatrixAt full q.succ ∧
    (update_submatrix full sub sub_inv q).2 * submatrixAt full q.succ = 1 := by
  obtain ⟨hr1, hr2⟩ := update_submatrix_row_correct full sub sub_inv q hinv hd1
  have hd2 := col_denom_ne_zero full sub sub_inv q hsub hinv hd1 hnew
  unfold col_denom at hd2
  obtain ⟨hc1, hc2⟩ := update_submatrix_col_correct full
    (update_submatrix_row full sub sub_inv q).1
    (update_submatrix_row full sub sub_inv q).2 q hr2 hd2
  have heq : (update_submatrix full sub sub_inv q).1 = submatrixAt full q.succ := by
    show (update_submatrix_col full (update_submatrix_row full sub sub_inv q).1
      (update_submatrix_row full sub sub_inv q).2 q).1 = _
    rw [hc1, hr1, hsub, updateRowCol_eq_submatrixAt]
  refine ⟨heq, ?_⟩
  have : (update_submatrix full sub sub_inv q).2 *
      (update_submatrix full sub sub_inv q).1 = 1 := hc2
  rw [heq] at this
  exact this

/-- C2 (amended): incremental submatrix maintenance equals the naive
recomputation — if `sub` is the submatrix of `full` with row/column `q`
removed, `sub_inv` its exact inverse, and the target submatrix (excluding
`q + 1`) is invertible, then, provided additionally the row-step
Sherman-Morrison denominator is nonzero, `update_submatrix` produces
exactly the directly-deleted submatrix together with its exact (two-sided)
inverse; and iterating from the pivot-0 state (direct deletion and direct
inversion) reproduces direct deletion and direct inversion at every step,
under the same per-step conditions. -/
theorem update_submatrix_correct {d : ℕ}
    (full : Matrix (Fin (d + 1)) (Fin (d + 1)) ℚ) :
    (∀ (sub sub_inv : Matrix (Fin d) (Fin d) ℚ) (q : Fin d),
      sub = submatrixAt full q.castSucc → sub_inv * sub = 1 →
      row_denom full sub sub_inv q ≠ 0 → (submatrixAt full q.succ).det ≠ 0 →
      (update_submatrix full sub sub_inv q).1 = submatrixAt full q.succ ∧
      (update_submatrix full sub sub_inv q).2 * submatrixAt full q.succ = 1 ∧
      submatrixAt full q.succ * (update_submatrix full sub sub_inv q).2 = 1 ∧
      (update_submatrix full sub sub_inv q).2 = (submatrixAt full q.succ)⁻¹) ∧
    (∀ (p : ℕ) (hp : p ≤ d),
      (∀ j (hj : j ≤ p), (submatrixAt full ⟨j, by omega⟩).det ≠ 0) →
      (∀ j (hj : j < p), row_denom full (submatrix_seq full j).1
        (submatrix_seq full j).2 ⟨j, by omega⟩ ≠ 0) →
      (submatrix_seq full p).1 = submatrixAt full ⟨p, by omega⟩ ∧
      (submatrix_seq full p).2 * submatrixAt full ⟨p, by omega⟩ = 1 ∧
      submatrixAt full ⟨p, by omega⟩ * (submatrix_seq full p).2 = 1) := by
  constructor
  · intro sub sub_inv q hsub hinv hd1 hnew
    obtain ⟨h1, h2⟩ := update_submatrix_step full sub sub_inv q hsub hinv hd1 hnew
    exact ⟨h1, h2, Matrix.mul_eq_one_comm.mpr h2, (Matrix.inv_eq_left_inv h2).symm⟩
  · intro p
    induction p with
    | zero =>
      intro hp hdets hrows
      have hz : ∀ h : 0 < d + 1, (⟨0, h⟩ : Fin (d + 1)) = 0 :=
        fun h => Fin.ext (by simp)
      rw [hz]
      have hdet0 := hdets 0 (le_refl 0)
      rw [hz] at hdet0
      exact ⟨rfl, linalg_inv_mul _ hdet0,
        Matrix.mul_eq_one_comm.mpr (linalg_inv_mul _ hdet0)⟩
    | succ p ih =>
      intro hp hdets hrows
      have hpd : p < d := by omega
      have hple : p ≤ d := by omega
      obtain ⟨ih1, ih2, ih3⟩ := ih hple (fun j hj => hdets j (by omega))
        (fun j hj => hrows j (by omega))
      have hseq : submatrix_seq full (p + 1) =
          update_submatrix full (submatrix_seq full p).1 (submatrix_seq full p).2
            ⟨p, hpd⟩ := by
        rw [submatrix_seq, dif_pos hpd]
      have hcast : (⟨p, hpd⟩ : Fin d).castSucc =
          (⟨p, Nat.lt_succ_of_le hple⟩ : Fin (d + 1)) := Fin.ext (by simp)
      have hsucc : (⟨p, hpd⟩ : Fin d).succ =
          (⟨p + 1, Nat.succ_lt_succ hpd⟩ : Fin (d + 1)) := Fin.ext (by simp)
      obtain ⟨s1, s2⟩ := update_submatrix_step full (submatrix_seq full p).1
        (submatrix_seq full p).2 ⟨p, hpd⟩
        (by rw [hcast]; exact ih1)
        (by rw [ih1]; exact ih2)
        (hrows p (by omega))
        (by rw [hsucc]; exact hdets (p + 1) (le_refl _))
      refine ⟨?_, ?_, ?_⟩
      · rw [hseq, s1, hsucc]
      · rw [hseq, ← hsucc]
        exact s2
      · rw [hseq, ← hsucc]
        exact Matrix.mul_eq_one_comm.mpr s2

/-- Witness for C2 at a concrete symmetric positive-definite matrix where
the row-step denominator is nonzero: the step reproduces direct deletion. -/
theorem update_submatrix_correct_witness :
    (!![(2 : ℚ), 1; 1, 2] =
      submatrixAt !![(2 : ℚ), 1, 0; 1, 2, 1; 0, 1, 2] (0 : Fin 2).castSucc) ∧
    (!![(2 : ℚ)/3, -1/3; -1/3, 2/3] * !![(2 : ℚ), 1; 1, 2] = 1) ∧
    (row_denom !![(2 : ℚ), 1, 0; 1, 2, 1; 0, 1, 2] !![(2 : ℚ), 1; 1, 2]
      !![(2 : ℚ)/3, -1/3; -1/3, 2/3] 0 ≠ 0) ∧
    ((submatrixAt !![(2 : ℚ), 1, 0; 1, 2, 1; 0, 1, 2] (0 : Fin 2).succ).det ≠ 0) ∧
    ((update_submatrix !![(2 : ℚ), 1, 0; 1, 2, 1; 0, 1, 2] !![(2 : ℚ), 1; 1, 2]
        !![(2 : ℚ)/3, -1/3; -1/3, 2/3] 0).1 =
      submatrixAt !![(2 : ℚ), 1, 0; 1, 2, 1; 0, 1, 2] (0 : Fin 2).succ) := by
  have hsub : !![(2 : ℚ), 1; 1, 2] =
      submatrixAt !![(2 : ℚ), 1, 0; 1, 2, 1; 0, 1, 2] (0 : Fin 2).castSucc := by
    decide
  have hinv : !![(2 : ℚ)/3, -1/3; -1/3, 2/3] * !![(2 : ℚ), 1; 1, 2] = 1 := by
    ext i j
    fin_cases i <;> fin_cases j <;>
      norm_num [Matrix.mul_apply, Fin.sum_univ_two, Matrix.one_apply]
  have huv : (update_vectors !![(2 : ℚ), 1, 0; 1, 2, 1; 0, 1, 2] (0 : Fin 2)).1 =
      ![(2 : ℚ), 0] := by decide
  have hd1 : row_denom !![(2 : ℚ), 1, 0; 1, 2, 1; 0, 1, 2] !![(2 : ℚ), 1; 1, 2]
      !![(2 : ℚ)/3, -1/3; -1/3, 2/3] 0 ≠ 0 := by
    norm_num [row_denom, huv, Matrix.dotProduct, Fin.sum_univ_two]
  have hS : submatrixAt !![(2 : ℚ), 1, 0; 1, 2, 1; 0, 1, 2] (0 : Fin 2).succ =
      !![(2 : ℚ), 0; 0, 2] := by decide
  have hnew : (submatrixAt !![(2 : ℚ), 1, 0; 1, 2, 1; 0, 1, 2] (0 : Fin 2).succ).det ≠ 0 := by
    rw [hS]
    norm_num [Matrix.det_fin_two_of]
  exact ⟨hsub, hinv, hd1, hnew,
    ((update_submatrix_correct !![(2 : ℚ), 1, 0; 1, 2, 1; 0, 1, 2]).1
      !![(2 : ℚ), 1; 1, 2] !![(2 : ℚ)/3, -1/3; -1/3, 2/3] 0 hsub hinv hd1 hnew).1⟩

/-- C2 counterexample: a symmetric positive-definite `full` where `sub` and
`sub_inv` are exact for excluded index 0 and both the old and the new
submatrix are invertible, yet after `update_submatrix` the maintained
"inverse" is not an inverse of the new submatrix — the claim as stated,
without any condition on the intermediate (row-replaced) matrix, is false:
here the row-step denominator `1 + V·coln` is exactly zero. -/
theorem update_submatrix_claim_counterexample :
    (!![(20 : ℚ), 2; 2, 1] =
      submatrixAt !![(1 : ℚ), 0, 1/2; 0, 20, 2; 1/2, 2, 1] (0 : Fin 2).castSucc) ∧
    (!![(1 : ℚ)/16, -1/8; -1/8, 5/4] * !![(20 : ℚ), 2; 2, 1] = 1) ∧
    (!![(4 : ℚ)/3, -2/3; -2/3, 4/3] *
      submatrixAt !![(1 : ℚ), 0, 1/2; 0, 20, 2; 1/2, 2, 1] (0 : Fin 2).succ = 1) ∧
    ((update_submatrix !![(1 : ℚ), 0, 1/2; 0, 20, 2; 1/2, 2, 1]
        !![(20 : ℚ), 2; 2, 1] !![(1 : ℚ)/16, -1/8; -1/8, 5/4] 0).2 *
      (update_submatrix !![(1 : ℚ), 0, 1/2; 0, 20, 2; 1/2, 2, 1]
        !![(20 : ℚ), 2; 2, 1] !![(1 : ℚ)/16, -1/8; -1/8, 5/4] 0).1) 0 0 ≠
      (1 : Matrix (Fin 2) (Fin 2) ℚ) 0 0 := by
  have hS : submatrixAt !![(1 : ℚ), 0, 1/2; 0, 20, 2; 1/2, 2, 1] (0 : Fin 2).succ =
      !![(1 : ℚ), 1/2; 1/2, 1] := by
    ext i j
    fin_cases i <;> fin_cases j <;>
      norm_num [submatrixAt, Matrix.submatrix_apply, Fin.succAbove, Fin.lt_def]
  have hv1 : (update_vectors !![(1 : ℚ), 0, 1/2; 0, 20, 2; 1/2, 2, 1] (0 : Fin 2)).1 =
      ![(1 : ℚ), 1/2] := by
    funext j
    fin_cases j <;>
      norm_num [update_vectors, Fin.succAbove, Fin.lt_def]
  have hv2 : (update_vectors !![(1 : ℚ), 0, 1/2; 0, 20, 2; 1/2, 2, 1] (0 : Fin 2)).2 =
      ![(1 : ℚ), 1/2] := by
    funext i
    fin_cases i <;>
      norm_num [update_vectors, Fin.succAbove, Fin.lt_def]
  have hrow1 : (update_submatrix_row !![(1 : ℚ), 0, 1/2; 0, 20, 2; 1/2, 2, 1]
      !![(20 : ℚ), 2; 2, 1] !![(1 : ℚ)/16, -1/8; -1/8, 5/4] 0).1 =
      !![(1 : ℚ), 1/2; 2, 1] := by
    simp only [update_submatrix_row]
    rw [hv1]
    ext i j
    fin_cases i <;> fin_cases j <;> norm_num [Matrix.updateRow_apply]
  have hrow2 : (update_submatrix_row !![(1 : ℚ), 0, 1/2; 0, 20, 2; 1/2, 2, 1]
      !![(20 : ℚ), 2; 2, 1] !![(1 : ℚ)/16, -1/8; -1/8, 5/4] 0).2 =
      !![(1 : ℚ)/16, -1/8; -1/8, 5/4] := by
    simp only [update_submatrix_row]
    rw [hv1]
    ext i j
    fin_cases i <;> fin_cases j <;>
      norm_num [Matrix.sub_apply, Matrix.vecMulVec_apply, Matrix.vecMul,
        Matrix.dotProduct, Fin.sum_univ_two]
  have hcol1 : (update_submatrix !![(1 : ℚ), 0, 1/2; 0, 20, 2; 1/2, 2, 1]
      !![(20 : ℚ), 2; 2, 1] !![(1 : ℚ)/16, -1/8; -1/8, 5/4] 0).1 =
      !![(1 : ℚ), 1/2; 1/2, 1] := by
    simp only [update_submatrix]
    rw [hrow1, hrow2]
    simp only [update_submatrix_col]
    rw [hv2]
    ext i j
    fin_cases i <;> fin_cases j <;> norm_num [Matrix.updateColumn_apply]
  have hcol2 : (update_submatrix !![(1 : ℚ), 0, 1/2; 0, 20, 2; 1/2, 2, 1]
      !![(20 : ℚ), 2; 2, 1] !![(1 : ℚ)/16, -1/8; -1/8, 5/4] 0).2 =
      !![(1 : ℚ)/19, -2/19; -1/38, 20/19] := by
    simp only [update_submatrix]
    rw [hrow1, hrow2]
    simp only [update_submatrix_col]
    rw [hv2]
    ext i j
    fin_cases i <;> fin_cases j <;>
      norm_num [Matrix.sub_apply, Matrix.vecMulVec_apply, Matrix.mulVec,
        Matrix.dotProduct, Fin.sum_univ_two]
  refine ⟨by decide, ?_, ?_, ?_⟩
  · ext i j
    fin_cases i <;> fin_cases j <;>
      norm_num [Matrix.mul_apply, Fin.sum_univ_two, Matrix.one_apply]
  · rw [hS]
    ext i j
    fin_cases i <;> fin_cases j <;>
      norm_num [Matrix.mul_apply, Fin.sum_univ_two, Matrix.one_apply]
  · rw [hcol1, hcol2]
    norm_num [Matrix.mul_apply, Fin.sum_univ_two, Matrix.one_apply]

end GroupSparseCov
